import Mathlib

/-
Verification of the metaldb view/fork/patch layer, its migration engine and
its index contracts, via a shallow embedding in Lean.

The repository ships the public crate root (src/lib.rs), the error and options
modules, the generic index iterators (src/indexes/iter.rs), the migration
example, benchmarks and property tests; the modules implementing the database
core (db.rs, views, keys, values, migration, the individual index types) are
not present in the source tree.  Where a definition embeds such a missing
module it is explicitly marked as modelled from the specification; everything
else is translated from the files that are present.
-/

set_option linter.unusedSectionVars false

namespace MetalDB

/-- Byte strings, the raw keys and values of the storage layer. -/
abbrev Bytes := List Nat

/-! ### Association-list primitives

The change sets and catalogs of the model are finite maps represented as
association lists.  Lookup returns the first binding, insertion replaces the
existing binding in place (so each key occurs at most once when maps are built
by insertion). -/

/-- Lookup of the first binding of a key in an association list. -/
def alookup [DecidableEq α] (k : α) : List (α × β) → Option β
  | [] => none
  | (a, b) :: rest => if a = k then some b else alookup k rest

/-- Insert a binding, replacing the first existing binding of the key. -/
def ainsert [DecidableEq α] (k : α) (v : β) : List (α × β) → List (α × β)
  | [] => [(k, v)]
  | (a, b) :: rest => if a = k then (k, v) :: rest else (a, b) :: ainsert k v rest

/-- Update the binding of a key with a function, starting from a default when
the key is absent. -/
def aupdate [DecidableEq α] (k : α) (g : β → β) (d : β) : List (α × β) → List (α × β)
  | [] => [(k, g d)]
  | (a, b) :: rest => if a = k then (k, g b) :: rest else (a, b) :: aupdate k g d rest

theorem alookup_ainsert_self [DecidableEq α] (k : α) (v : β) (l : List (α × β)) :
    alookup k (ainsert k v l) = some v := by
  induction l with
  | nil => simp [ainsert, alookup]
  | cons p rest ih =>
    by_cases h : p.1 = k
    · simp [ainsert, alookup, h]
    · simp [ainsert, alookup, h, ih]

theorem alookup_ainsert_ne [DecidableEq α] {k k' : α} (v : β) (l : List (α × β))
    (h : k ≠ k') : alookup k' (ainsert k v l) = alookup k' l := by
  induction l with
  | nil => simp [ainsert, alookup, h]
  | cons p rest ih =>
    by_cases hp : p.1 = k
    · simp [ainsert, alookup, hp, h]
    · simp [ainsert, alookup, hp, ih]

theorem alookup_aupdate_self [DecidableEq α] (k : α) (g : β → β) (d : β)
    (l : List (α × β)) :
    alookup k (aupdate k g d l) = some (g ((alookup k l).getD d)) := by
  induction l with
  | nil => simp [aupdate, alookup]
  | cons p rest ih =>
    by_cases h : p.1 = k
    · simp [aupdate, alookup, h]
    · simp [aupdate, alookup, h, ih]

theorem alookup_aupdate_ne [DecidableEq α] {k k' : α} (g : β → β) (d : β)
    (l : List (α × β)) (h : k ≠ k') :
    alookup k' (aupdate k g d l) = alookup k' l := by
  induction l with
  | nil => simp [aupdate, alookup, h]
  | cons p rest ih =>
    by_cases hp : p.1 = k
    · simp [aupdate, alookup, hp, h]
    · simp [aupdate, alookup, hp, ih]

/-! ### Change sets, forks and patches

Modelled from the spec: the fork/patch layer lives in the db module, which is
absent from the source tree.  Per spec section 4.4, a fork is a base snapshot
plus a change set mapping each resolved address to
Changes = (cleared flag, map of key bytes to Put or Delete); a read consults
the entry-level override first, then the cleared flag, then the snapshot.
Address, key and value types are kept abstract: the claims quantify over
them. -/

/-- Entry-level change staged in a fork: a put of a value or a delete. -/
inductive EntryChange (V : Type) where
  | put (v : V)
  | del
deriving DecidableEq

/-- Per-address change set: a cleared flag plus entry-level overrides. -/
structure Changes (K V : Type) where
  cleared : Bool
  entries : List (K × EntryChange V)
deriving DecidableEq

/-- Empty change set for an address that has not been touched. -/
def Changes.empty : Changes K V := ⟨false, []⟩

/-- Database state: what each resolved address associates to each key. -/
abbrev Db (A K V : Type) := A → K → Option V

/-- A fork: a base snapshot plus per-address change sets (spec section 4.4). -/
structure Fork (A K V : Type) where
  base : Db A K V
  changes : List (A × Changes K V)

variable {A K V : Type} [DecidableEq A] [DecidableEq K]

/-- Read through a fork (spec section 4.4, read-your-writes): the latest
entry-level override wins, else a cleared address reads as absent, else the
base snapshot is consulted. -/
def Fork.get (f : Fork A K V) (a : A) (k : K) : Option V :=
  match alookup a f.changes with
  | none => f.base a k
  | some c =>
    match alookup k c.entries with
    | some (.put v) => some v
    | some .del => none
    | none => if c.cleared then none else f.base a k

/-- Apply a function to the change set of one address. -/
def Fork.updateChanges (f : Fork A K V) (a : A) (g : Changes K V → Changes K V) :
    Fork A K V :=
  { f with changes := aupdate a g Changes.empty f.changes }

/-- Stage a put of value v under key k at address a. -/
def Fork.put (f : Fork A K V) (a : A) (k : K) (v : V) : Fork A K V :=
  f.updateChanges a fun c => { c with entries := ainsert k (.put v) c.entries }

/-- Stage a delete of key k at address a. -/
def Fork.removeKey (f : Fork A K V) (a : A) (k : K) : Fork A K V :=
  f.updateChanges a fun c => { c with entries := ainsert k .del c.entries }

/-- Clear an address: set the cleared flag and drop all staged entries
(spec section 4.2). -/
def Fork.clear (f : Fork A K V) (a : A) : Fork A K V :=
  f.updateChanges a fun _ => { cleared := true, entries := [] }

/-- The staged entry-level override for (a, k), if any. -/
def Fork.stagedEntry (f : Fork A K V) (a : A) (k : K) : Option (EntryChange V) :=
  (alookup a f.changes).bind fun c => alookup k c.entries

/-- Whether the cleared flag is set for address a. -/
def Fork.clearedAt (f : Fork A K V) (a : A) : Bool :=
  ((alookup a f.changes).map Changes.cleared).getD false

/-- A patch: the drained, per-address change sets of a fork (spec section 3). -/
abbrev Patch (A K V : Type) := List (A × Changes K V)

/-- Drain a fork into its patch. -/
def Fork.intoPatch (f : Fork A K V) : Patch A K V := f.changes

/-- Open a fresh fork over a database state. -/
def Fork.ofDb (db : Db A K V) : Fork A K V := ⟨db, []⟩

/-- Effect of one per-address change set on the contents of that address:
overrides win, otherwise a cleared address is empty, otherwise the previous
contents show through (spec sections 4.4 and 3). -/
def applyChanges (m : K → Option V) (c : Changes K V) : K → Option V := fun k =>
  match alookup k c.entries with
  | some (.put v) => some v
  | some .del => none
  | none => if c.cleared then none else m k

/-- Merge a patch into a database state: each address carrying a change set is
rewritten by it, untouched addresses are unchanged. -/
def mergePatch (db : Db A K V) (p : Patch A K V) : Db A K V := fun a =>
  match alookup a p with
  | some c => applyChanges (db a) c
  | none => db a

/-! ### Basic fork read lemmas -/

theorem Fork.get_put_self (f : Fork A K V) (a : A) (k : K) (v : V) :
    (f.put a k v).get a k = some v := by
  simp [Fork.put, Fork.updateChanges, Fork.get, alookup_aupdate_self,
    alookup_ainsert_self]

theorem Fork.get_put_ne_key (f : Fork A K V) (a : A) {k k' : K} (v : V)
    (h : k ≠ k') : (f.put a k v).get a k' = f.get a k' := by
  simp only [Fork.put, Fork.updateChanges, Fork.get, alookup_aupdate_self]
  cases hc : alookup a f.changes with
  | none => simp [Option.getD, Changes.empty, alookup_ainsert_ne _ _ h, alookup, h]
  | some c => simp [Option.getD, alookup_ainsert_ne _ _ h]

theorem Fork.get_put_ne_addr (f : Fork A K V) {a a' : A} (k : K) (v : V) (k' : K)
    (h : a ≠ a') : (f.put a k v).get a' k' = f.get a' k' := by
  simp [Fork.put, Fork.updateChanges, Fork.get, alookup_aupdate_ne _ _ _ h]

theorem Fork.get_removeKey_self (f : Fork A K V) (a : A) (k : K) :
    (f.removeKey a k).get a k = none := by
  simp [Fork.removeKey, Fork.updateChanges, Fork.get, alookup_aupdate_self,
    alookup_ainsert_self]

theorem Fork.get_removeKey_ne_key (f : Fork A K V) (a : A) {k k' : K}
    (h : k ≠ k') : (f.removeKey a k).get a k' = f.get a k' := by
  simp only [Fork.removeKey, Fork.updateChanges, Fork.get, alookup_aupdate_self]
  cases hc : alookup a f.changes with
  | none => simp [Option.getD, Changes.empty, alookup_ainsert_ne _ _ h, alookup, h]
  | some c => simp [Option.getD, alookup_ainsert_ne _ _ h]

theorem Fork.get_removeKey_ne_addr (f : Fork A K V) {a a' : A} (k k' : K)
    (h : a ≠ a') : (f.removeKey a k).get a' k' = f.get a' k' := by
  simp [Fork.removeKey, Fork.updateChanges, Fork.get, alookup_aupdate_ne _ _ _ h]

theorem Fork.get_clear_self (f : Fork A K V) (a : A) (k : K) :
    (f.clear a).get a k = none := by
  simp [Fork.clear, Fork.updateChanges, Fork.get, alookup_aupdate_self, alookup]

theorem Fork.get_clear_ne_addr (f : Fork A K V) {a a' : A} (k : K)
    (h : a ≠ a') : (f.clear a).get a' k = f.get a' k := by
  simp [Fork.clear, Fork.updateChanges, Fork.get, alookup_aupdate_ne _ _ _ h]

/-- Merging a fork and reopening a fresh fork over the result preserves every
visible read: the patch replays exactly the read-your-writes overlay. -/
theorem Fork.get_ofDb_mergePatch (f : Fork A K V) (a : A) (k : K) :
    (Fork.ofDb (mergePatch f.base f.intoPatch)).get a k = f.get a k := by
  cases hc : alookup a f.changes with
  | none => simp [Fork.ofDb, Fork.get, Fork.intoPatch, mergePatch, alookup, hc]
  | some c =>
    cases he : alookup k c.entries with
    | none =>
      simp [Fork.ofDb, Fork.get, Fork.intoPatch, mergePatch, applyChanges, alookup,
        hc, he]
    | some e =>
      cases e <;>
        simp [Fork.ofDb, Fork.get, Fork.intoPatch, mergePatch, applyChanges, alookup,
          hc, he]

/-! ### Iteration through a fork

Modelled from the spec (section 4.4): iteration merges the sorted in-memory
change set with the snapshot iterator for the address; when the cleared flag
holds, the snapshot stream for the address is suppressed.  The snapshot stream
is passed in explicitly, as the backend iterator would supply it. -/

/-- Emit the effect of one staged entry into an iteration stream: a put
contributes its pair, a delete contributes nothing. -/
def emitEntry (k : K) (e : EntryChange V) (rest : List (K × V)) : List (K × V) :=
  match e with
  | .put v => (k, v) :: rest
  | .del => rest

/-- Merge a key-sorted snapshot stream with a key-sorted staged entry list;
on equal keys the staged entry overrides the snapshot pair. -/
def mergeStreams [LinearOrder K] :
    List (K × V) → List (K × EntryChange V) → List (K × V)
  | [], es => es.foldr (fun p acc => emitEntry p.1 p.2 acc) []
  | b :: bs, [] => b :: bs
  | b :: bs, e :: es =>
    if b.1 < e.1 then b :: mergeStreams bs (e :: es)
    else if e.1 < b.1 then emitEntry e.1 e.2 (mergeStreams (b :: bs) es)
    else emitEntry e.1 e.2 (mergeStreams bs es)
termination_by bs es => bs.length + es.length

/-- Staged entries of an address in ascending key order. -/
def sortEntries [LinearOrder K] (es : List (K × EntryChange V)) :
    List (K × EntryChange V) :=
  List.insertionSort (fun p q => p.1 ≤ q.1) es

/-- Iterate the view of address a through a fork, given the base snapshot
stream for that address. -/
def Fork.iterate [LinearOrder K] (f : Fork A K V) (a : A)
    (baseStream : List (K × V)) : List (K × V) :=
  match alookup a f.changes with
  | none => baseStream
  | some c => mergeStreams (if c.cleared then [] else baseStream) (sortEntries c.entries)

/-! ### Merge traces -/

/-- Database state after merging a sequence of patches in order. -/
def dbAfterMerges (db0 : Db A K V) (ps : List (Patch A K V)) : Db A K V :=
  ps.foldl mergePatch db0

/-- The snapshot taken after the first t merges of a trace: it captures the
state produced by exactly those merges. -/
def snapshotAt (db0 : Db A K V) (ps : List (Patch A K V)) (t : Nat) : Db A K V :=
  dbAfterMerges db0 (ps.take t)

/-- Addresses a patch carries change sets for. -/
def touchedAddrs (p : Patch A K V) : List A := p.map Prod.fst

theorem alookup_mem_map_fst [DecidableEq α] {k : α} {l : List (α × β)} {b : β}
    (h : alookup k l = some b) : k ∈ l.map Prod.fst := by
  induction l with
  | nil => simp [alookup] at h
  | cons p rest ih =>
    by_cases hp : p.1 = k
    · simp [hp]
    · simp only [alookup, hp, if_false] at h
      simp [ih h]

/-! ### Claim theorems: fork reads, iteration, snapshots, merges -/

/-- C1: after fork.put(addr, k, v) and before any merge, fork.get(addr, k)
returns Some(v); in general a read through a fork returns the latest staged
Put override for (addr, k) if one exists, else absent if (addr, k) is staged
as Delete or the cleared flag of the address is set, else the value seen by
the base snapshot. -/
theorem c1_fork_read_your_writes (f : Fork A K V) (a : A) (k : K) (v : V) :
    (f.put a k v).get a k = some v
  ∧ ∀ k₂, f.get a k₂ =
      match f.stagedEntry a k₂ with
      | some (.put w) => some w
      | some .del => none
      | none => if f.clearedAt a then none else f.base a k₂ := by
  refine ⟨Fork.get_put_self f a k v, fun k₂ => ?_⟩
  cases hc : alookup a f.changes with
  | none => simp [Fork.get, Fork.stagedEntry, Fork.clearedAt, hc]
  | some c =>
    cases he : alookup k₂ c.entries with
    | none => simp [Fork.get, Fork.stagedEntry, Fork.clearedAt, hc, he]
    | some e =>
      cases e <;> simp [Fork.get, Fork.stagedEntry, Fork.clearedAt, hc, he]

/-- C2: a snapshot observes exactly the merges that happened before its
creation, and a snapshot taken before a merge never observes that patch,
however many merges follow. -/
theorem c2_snapshot_isolation (db0 : Db A K V) (ps qs : List (Patch A K V))
    (t : Nat) (h : t ≤ ps.length) :
    snapshotAt db0 (ps ++ qs) t = snapshotAt db0 ps t
  ∧ snapshotAt db0 ps ps.length = dbAfterMerges db0 ps := by
  constructor
  · unfold snapshotAt
    rw [List.take_append_of_le_length h]
  · unfold snapshotAt
    rw [List.take_length]

/-- Witness for C2 at a concrete one-merge trace followed by a later merge. -/
theorem c2_snapshot_isolation_witness :
    snapshotAt (fun (_ : Nat) (_ : Nat) => (none : Option Nat))
        ([[(0, ⟨false, [(0, EntryChange.put 1)]⟩)]] ++
          [[(0, ⟨false, [(0, EntryChange.put 2)]⟩)]]) 1 =
      snapshotAt (fun _ _ => none) [[(0, ⟨false, [(0, EntryChange.put 1)]⟩)]] 1
  ∧ snapshotAt (fun (_ : Nat) (_ : Nat) => (none : Option Nat))
        [[(0, ⟨false, [(0, EntryChange.put 1)]⟩)]] 1 =
      dbAfterMerges (fun _ _ => none) [[(0, ⟨false, [(0, EntryChange.put 1)]⟩)]] :=
  c2_snapshot_isolation _ _ _ _ (by decide)

/-- C4: merging patches with disjoint touched address sets commutes, and on
overlapping (address, key) pairs the later merge wins at entry granularity. -/
theorem c4_merge_commutes_disjoint (db : Db A K V) (p1 p2 : Patch A K V) :
    ((∀ a, a ∈ touchedAddrs p1 → a ∉ touchedAddrs p2) →
      mergePatch (mergePatch db p1) p2 = mergePatch (mergePatch db p2) p1)
  ∧ (∀ a c k w, alookup a p2 = some c → alookup k c.entries = some (.put w) →
      mergePatch (mergePatch db p1) p2 a k = some w)
  ∧ (∀ a c k, alookup a p2 = some c → alookup k c.entries = some .del →
      mergePatch (mergePatch db p1) p2 a k = none) := by
  refine ⟨fun hdisj => ?_, fun a c k w h2 he => ?_, fun a c k h2 he => ?_⟩
  · funext a
    cases h1 : alookup a p1 with
    | none =>
      cases h2 : alookup a p2 with
      | none => simp [mergePatch, h1, h2]
      | some c2 => simp [mergePatch, h1, h2]
    | some c1 =>
      cases h2 : alookup a p2 with
      | none => simp [mergePatch, h1, h2]
      | some c2 =>
        exact absurd (alookup_mem_map_fst h2)
          (hdisj a (alookup_mem_map_fst h1))
  · simp [mergePatch, applyChanges, h2, he]
  · simp [mergePatch, applyChanges, h2, he]

/-- Witness for C4: two concrete patches, disjoint on addresses, and a later
patch winning with a put and a delete at entry granularity. -/
theorem c4_merge_commutes_disjoint_witness :
    (mergePatch (mergePatch (fun (_ : Nat) (_ : Nat) => (none : Option Nat))
        [(0, ⟨false, [(0, EntryChange.put 1)]⟩)])
        [(1, ⟨false, [(0, EntryChange.put 2), (5, EntryChange.del)]⟩)] =
      mergePatch (mergePatch (fun _ _ => none)
        [(1, ⟨false, [(0, EntryChange.put 2), (5, EntryChange.del)]⟩)])
        [(0, ⟨false, [(0, EntryChange.put 1)]⟩)])
  ∧ mergePatch (mergePatch (fun (_ : Nat) (_ : Nat) => (none : Option Nat))
        [(0, ⟨false, [(0, EntryChange.put 1)]⟩)])
        [(1, ⟨false, [(0, EntryChange.put 2), (5, EntryChange.del)]⟩)] 1 0 = some 2
  ∧ mergePatch (mergePatch (fun (_ : Nat) (_ : Nat) => (none : Option Nat))
        [(0, ⟨false, [(0, EntryChange.put 1)]⟩)])
        [(1, ⟨false, [(0, EntryChange.put 2), (5, EntryChange.del)]⟩)] 1 5 = none := by
  obtain ⟨h1, h2, h3⟩ := c4_merge_commutes_disjoint
    (fun (_ : Nat) (_ : Nat) => (none : Option Nat))
    [(0, ⟨false, [(0, EntryChange.put 1)]⟩)]
    [(1, ⟨false, [(0, EntryChange.put 2), (5, EntryChange.del)]⟩)]
  exact ⟨h1 (by decide),
    h2 1 ⟨false, [(0, EntryChange.put 2), (5, EntryChange.del)]⟩ 0 2
      (by decide) (by decide),
    h3 1 ⟨false, [(0, EntryChange.put 2), (5, EntryChange.del)]⟩ 5
      (by decide) (by decide)⟩

/-- C7: after view.clear() followed by put(k, v) through the same fork,
iterating the view yields exactly the single pair (k, v), whatever was staged
in the fork or present in the base snapshot stream before. -/
theorem c7_clear_put_iteration [LinearOrder K] (f : Fork A K V) (a : A)
    (k : K) (v : V) (baseStream : List (K × V)) :
    ((f.clear a).put a k v).iterate a baseStream = [(k, v)] := by
  simp [Fork.clear, Fork.put, Fork.updateChanges, Fork.iterate,
    alookup_aupdate_self, ainsert, sortEntries, List.insertionSort,
    List.orderedInsert, mergeStreams, emitEntry]

/-! ### System catalog and typed open

Modelled from the spec (section 4.1): the views module holding the catalog is
absent from the source tree.  The catalog maps each resolved address to
IndexMetadata (type tag and identity); opening an address reuses a matching
record, re-stamps a tombstone, allocates a fresh record when absent, and
fails with TypeMismatch on a conflicting non-tombstone tag. -/

/-- Type tag recorded in the catalog for an allocated index. -/
inductive IndexType where
  | entry
  | list
  | sparseList
  | map
  | keySet
  | valueSet
  | group
  | tombstone
deriving DecidableEq

/-- Catalog record of an allocated index: type tag plus stable identity. -/
structure IndexMetadata where
  tag : IndexType
  identity : Nat
deriving DecidableEq

/-- Error raised when an address is reopened with a conflicting type tag. -/
inductive OpenError where
  | typeMismatch
deriving DecidableEq

/-- The system catalog, keyed by resolved address. -/
abbrev Catalog (A : Type) := List (A × IndexMetadata)

/-- Open an index address with a requested type tag against the catalog
(spec section 4.1, steps 1 to 5). -/
def openIndex (cat : Catalog A) (nextId : Nat) (a : A) (tag : IndexType) :
    Except OpenError (IndexMetadata × Catalog A) :=
  match alookup a cat with
  | none => .ok (⟨tag, nextId⟩, ainsert a ⟨tag, nextId⟩ cat)
  | some m =>
    if m.tag = tag then .ok (m, cat)
    else if m.tag = .tombstone then
      .ok (⟨tag, m.identity⟩, ainsert a ⟨tag, m.identity⟩ cat)
    else .error .typeMismatch

/-- C5: opening an address whose catalog record carries a non-tombstone type
tag different from the requested one fails with TypeMismatch; in particular,
opening as List an address committed as Map fails with TypeMismatch. -/
theorem c5_open_type_mismatch (cat : Catalog A) (nextId : Nat) (a : A)
    (m : IndexMetadata) (tag : IndexType) :
    (alookup a cat = some m → m.tag ≠ .tombstone → m.tag ≠ tag →
      openIndex cat nextId a tag = .error .typeMismatch)
  ∧ (alookup a cat = none →
      ∃ m2 cat2, openIndex cat nextId a .map = .ok (m2, cat2) ∧
        ∀ nextId2, openIndex cat2 nextId2 a .list = .error .typeMismatch) := by
  constructor
  · intro hm hts htag
    simp [openIndex, hm, htag, hts]
  · intro hnone
    refine ⟨⟨.map, nextId⟩, ainsert a ⟨.map, nextId⟩ cat, ?_, fun nextId2 => ?_⟩
    · simp [openIndex, hnone]
    · simp [openIndex, alookup_ainsert_self]

/-- Witness for C5: a fresh address committed as Map, then opened as List. -/
theorem c5_open_type_mismatch_witness :
    openIndex [((0 : Nat), (⟨.map, 7⟩ : IndexMetadata))] 8 0 .list =
        .error .typeMismatch
  ∧ ∃ m2 cat2, openIndex ([] : Catalog Nat) 0 0 .map = .ok (m2, cat2) ∧
      ∀ nextId2, openIndex cat2 nextId2 0 .list = .error .typeMismatch :=
  ⟨(c5_open_type_mismatch [((0 : Nat), ⟨.map, 7⟩)] 8 0 ⟨.map, 7⟩ .list).1
      (by decide) (by decide) (by decide),
    (c5_open_type_mismatch ([] : Catalog Nat) 0 0 ⟨.map, 7⟩ .list).2 (by decide)⟩

/-! ### Binary codecs present in the source tree

The SimpleData value codec is translated from benches/benchmarks/encoding.rs:
to_bytes writes id as little-endian u16, class as little-endian i16 and value
as little-endian i32 into an 8-byte buffer; from_bytes reads them back.  The
Key key codec is translated from tests/key/mod.rs: write copies the 32 raw
bytes, read copies them back. -/

/-- Little-endian bytes of a u16. -/
def u16ToBytesLE (n : Nat) : Bytes := [n % 256, n / 256 % 256]

/-- Little-endian bytes of a u32. -/
def u32ToBytesLE (n : Nat) : Bytes :=
  [n % 256, n / 256 % 256, n / 65536 % 256, n / 16777216 % 256]

/-- Little-endian bytes of an i16 in two-complement form. -/
def i16ToBytesLE (z : Int) : Bytes := u16ToBytesLE (z % 65536).toNat

/-- Little-endian bytes of an i32 in two-complement form. -/
def i32ToBytesLE (z : Int) : Bytes := u32ToBytesLE (z % 4294967296).toNat

/-- The SimpleData record of benches/benchmarks/encoding.rs; the Rust field
named class is rendered with guillemets since class is a Lean keyword. -/
structure SimpleData where
  id : Nat
  «class» : Int
  value : Int
deriving DecidableEq

/-- Well-formed SimpleData: fields within the u16, i16 and i32 ranges. -/
def SimpleData.WF (d : SimpleData) : Prop :=
  d.id < 65536 ∧ -32768 ≤ d.«class» ∧ d.«class» < 32768 ∧
    -2147483648 ≤ d.value ∧ d.value < 2147483648

instance (d : SimpleData) : Decidable d.WF := by
  unfold SimpleData.WF; infer_instance

/-- SimpleData.to_bytes: 8-byte little-endian buffer. -/
def SimpleData.toBytes (d : SimpleData) : Bytes :=
  u16ToBytesLE d.id ++ i16ToBytesLE d.«class» ++ i32ToBytesLE d.value

/-- SimpleData.from_bytes: read back the three little-endian fields from the
first 8 bytes; fewer than 8 bytes is a decode failure. -/
def SimpleData.fromBytes : Bytes → Option SimpleData
  | b0 :: b1 :: b2 :: b3 :: b4 :: b5 :: b6 :: b7 :: _ =>
    let idv := b0 + 256 * b1
    let cn := b2 + 256 * b3
    let vn := b4 + 256 * b5 + 65536 * b6 + 16777216 * b7
    some
      { id := idv
        «class» := if cn < 32768 then (cn : Int) else (cn : Int) - 65536
        value := if vn < 2147483648 then (vn : Int) else (vn : Int) - 4294967296 }
  | _ => none

/-- Key.write of tests/key/mod.rs copies the raw key bytes into the buffer. -/
def Key.write (k : Bytes) : Bytes := k

/-- Key.read of tests/key/mod.rs copies the buffer back into a key. -/
def Key.read (b : Bytes) : Bytes := b

/-- Lexicographic order on byte strings, the iteration order of the engine. -/
def bytesLe : Bytes → Bytes → Bool
  | [], _ => true
  | _ :: _, [] => false
  | a :: as, b :: bs => if a < b then true else if b < a then false else bytesLe as bs

/-- C8: decoding the encoding returns the value bitwise for the value codec
defined in the source (SimpleData), and the key codec defined in the source
(Key) satisfies read(write(k)) = k with an order-preserving byte encoding. -/
theorem c8_codec_roundtrip :
    (∀ d : SimpleData, d.WF → SimpleData.fromBytes d.toBytes = some d)
  ∧ (∀ k : Bytes, Key.read (Key.write k) = k)
  ∧ (∀ k1 k2 : Bytes, bytesLe k1 k2 = bytesLe (Key.write k1) (Key.write k2)) := by
  refine ⟨fun d hwf => ?_, fun k => rfl, fun k1 k2 => rfl⟩
  obtain ⟨idv, cls, val⟩ := d
  simp only [SimpleData.WF] at hwf
  obtain ⟨hid, hc1, hc2, hv1, hv2⟩ := hwf
  simp only [SimpleData.toBytes, u16ToBytesLE, i16ToBytesLE, i32ToBytesLE,
    u32ToBytesLE, List.cons_append, List.nil_append, SimpleData.fromBytes,
    Option.some.injEq, SimpleData.mk.injEq]
  refine ⟨by omega, ?_, ?_⟩
  · split <;> omega
  · split <;> omega

/-- Witness for C8 at the sample data of the benchmark (id 1, class -5,
value 2127). -/
theorem c8_codec_roundtrip_witness :
    SimpleData.WF ⟨1, -5, 2127⟩
  ∧ SimpleData.fromBytes (SimpleData.toBytes ⟨1, -5, 2127⟩) = some ⟨1, -5, 2127⟩ :=
  ⟨by decide, c8_codec_roundtrip.1 ⟨1, -5, 2127⟩ (by decide)⟩

/-! ### Generic index iterators

Translated from src/indexes/iter.rs.  Entries wraps the base view iterator;
skip_values keeps the raw stream and stops parsing values (the value decode
type becomes unit), skip_keys does the same for keys; the Keys iterator
projects the first component of each base item, the Values iterator the
second.  The base view iterator, implemented in the absent views module, is
modelled as the decoded stream of pairs it yields. -/

/-- Iterator over key-value pairs of an index (struct Entries). -/
structure Entries (K V : Type) where
  baseIter : List (K × V)

/-- Iterator over keys of an index (struct Keys). -/
structure Keys (K : Type) where
  baseIter : List (K × Unit)

/-- Iterator over values of an index (struct Values). -/
structure Values (V : Type) where
  baseIter : List (Unit × V)

/-- Entries::next yields the head pair of the base iterator. -/
def Entries.next (e : Entries K V) : Option ((K × V) × Entries K V) :=
  match e.baseIter with
  | [] => none
  | p :: rest => some (p, ⟨rest⟩)

/-- Entries::skip_values drops the value type of the base stream. -/
def Entries.skipValues (e : Entries K V) : Keys K :=
  ⟨e.baseIter.map fun p => (p.1, ())⟩

/-- Entries::skip_keys drops the key type of the base stream. -/
def Entries.skipKeys (e : Entries K V) : Values V :=
  ⟨e.baseIter.map fun p => ((), p.2)⟩

/-- Keys::next maps the base item to its key component. -/
def Keys.next (i : Keys K) : Option (K × Keys K) :=
  match i.baseIter with
  | [] => none
  | p :: rest => some (p.1, ⟨rest⟩)

/-- Values::next maps the base item to its value component. -/
def Values.next (i : Values V) : Option (V × Values V) :=
  match i.baseIter with
  | [] => none
  | p :: rest => some (p.2, ⟨rest⟩)

/-- Everything an Entries iterator will yield, in order. -/
def Entries.toList (e : Entries K V) : List (K × V) := e.baseIter

/-- Everything a Keys iterator will yield, in order. -/
def Keys.toList (i : Keys K) : List K := i.baseIter.map Prod.fst

/-- Everything a Values iterator will yield, in order. -/
def Values.toList (i : Values V) : List V := i.baseIter.map Prod.snd

theorem entriesToList_next (e : Entries K V) :
    e.toList = match e.next with
      | none => []
      | some (p, e2) => p :: e2.toList := by
  cases e with
  | mk l => cases l <;> rfl

theorem keysToList_next (i : Keys K) :
    i.toList = match i.next with
      | none => []
      | some (k, i2) => k :: i2.toList := by
  cases i with
  | mk l => cases l <;> rfl

theorem valuesToList_next (i : Values V) :
    i.toList = match i.next with
      | none => []
      | some (v, i2) => v :: i2.toList := by
  cases i with
  | mk l => cases l <;> rfl

/-- C10: the Keys iterator obtained by Entries::skip_values yields exactly the
first components of the pairs the Entries iterator would yield, in the same
order, and the Values iterator obtained by Entries::skip_keys yields exactly
the second components in the same order. -/
theorem c10_skip_projections (e : Entries K V) :
    (e.skipValues).toList = e.toList.map Prod.fst
  ∧ (e.skipKeys).toList = e.toList.map Prod.snd := by
  constructor
  · simp [Entries.skipValues, Keys.toList, Entries.toList, List.map_map,
      Function.comp]
  · simp [Entries.skipKeys, Values.toList, Entries.toList, List.map_map,
      Function.comp]

/-! ### Migration addressing and flush

Modelled from the spec (sections 4.1 and 4.5): the migration module is absent
from the source tree.  A dotted name is a list of segments (segment type kept
abstract); Prefixed(R, inner) rewrites a name to R.name in the live namespace,
Migration(R, inner) places it under the reserved staged namespace for R.  The
flush emits, for every staged address of the root, a subtree-clear of the live
address carrying all staged entries as puts, and a subtree-clear of the staged
address, all in one patch. -/

/-- A migration-aware resolved address: a dotted name plus the flag telling
whether it lives in the reserved staged namespace. -/
structure MAddr (S : Type) where
  staged : Bool
  name : List S
deriving DecidableEq

/-- Resolution through a Prefixed(root, inner) access: the live namespace. -/
def prefixedResolve (root : S) (n : List S) : MAddr S := ⟨false, root :: n⟩

/-- Resolution through a Migration(root, inner) access: the staged
namespace. -/
def migrationResolve (root : S) (n : List S) : MAddr S := ⟨true, root :: n⟩

/-- An address belongs to the namespace of a root when its first name segment
is that root. -/
def MAddr.underRoot (a : MAddr S) (root : S) : Prop := a.name.head? = some root

instance [DecidableEq S] (a : MAddr S) (root : S) : Decidable (a.underRoot root) := by
  unfold MAddr.underRoot; infer_instance

/-- Finite database contents, keyed by migration-aware address. -/
abbrev MDb (S K V : Type) := List (MAddr S × List (K × V))

/-- Read a finite database as a database state. -/
def mdbGet [DecidableEq S] [DecidableEq K] (db : MDb S K V) : Db (MAddr S) K V :=
  fun a k => (alookup a db).bind fun kvs => alookup k kvs

/-- Stage every pair of a key-value list as an entry-level put. -/
def putsOf (kvs : List (K × V)) : List (K × EntryChange V) :=
  kvs.map fun p => (p.1, .put p.2)

/-- The patch emitted by flush_migration for a root: for each staged address
of the root, clear the live address and insert all staged entries there, and
clear the staged address (spec section 4.5, phase 3). -/
def flushPatch [DecidableEq S] (db : MDb S K V) (root : S) : Patch (MAddr S) K V :=
  match db with
  | [] => []
  | (a, kvs) :: rest =>
    if a.staged = true ∧ a.name.head? = some root then
      (⟨false, a.name⟩, ⟨true, putsOf kvs⟩) :: (a, ⟨true, []⟩) :: flushPatch rest root
    else flushPatch rest root

section Migration

variable {S : Type} [DecidableEq S]

theorem alookup_putsOf [DecidableEq K] (k : K) (kvs : List (K × V)) :
    alookup k (putsOf kvs) = (alookup k kvs).map EntryChange.put := by
  induction kvs with
  | nil => simp [putsOf, alookup]
  | cons p rest ih =>
    by_cases hp : p.1 = k
    · simp [putsOf, alookup, hp]
    · simp only [putsOf, List.map_cons, alookup, hp, if_false]
      exact ih

theorem flushPatch_lookup_staged (db : MDb S K V) (root : S) (n : List S)
    (kvs : List (K × V)) (h : alookup ⟨true, root :: n⟩ db = some kvs) :
    alookup ⟨true, root :: n⟩ (flushPatch db root) =
      some ⟨true, ([] : List (K × EntryChange V))⟩ := by
  induction db with
  | nil => simp [alookup] at h
  | cons e rest ih =>
    obtain ⟨b, kvs0⟩ := e
    by_cases hb : b = (⟨true, root :: n⟩ : MAddr S)
    · subst hb
      simp [flushPatch, alookup, MAddr.mk.injEq]
    · simp only [alookup, hb, if_false] at h
      by_cases hcond : b.staged = true ∧ b.name.head? = some root
      · simp [flushPatch, hcond, alookup, MAddr.mk.injEq, hb, ih h]
      · simp [flushPatch, hcond, ih h]

theorem flushPatch_lookup_live (db : MDb S K V) (root : S) (n : List S)
    (kvs : List (K × V)) (h : alookup ⟨true, root :: n⟩ db = some kvs) :
    alookup ⟨false, root :: n⟩ (flushPatch db root) = some ⟨true, putsOf kvs⟩ := by
  induction db with
  | nil => simp [alookup] at h
  | cons e rest ih =>
    obtain ⟨b, kvs0⟩ := e
    by_cases hb : b = (⟨true, root :: n⟩ : MAddr S)
    · subst hb
      have hk : kvs0 = kvs := by simpa [alookup] using h
      subst hk
      simp [flushPatch, alookup, MAddr.mk.injEq]
    · simp only [alookup, hb, if_false] at h
      by_cases hcond : b.staged = true ∧ b.name.head? = some root
      · have hlive : (⟨false, b.name⟩ : MAddr S) ≠ ⟨false, root :: n⟩ := by
          intro hcontra
          apply hb
          cases b with
          | mk st nm =>
            simp only [MAddr.mk.injEq] at hcontra ⊢
            exact ⟨hcond.1, hcontra.2⟩
        have hb2 : b ≠ (⟨false, root :: n⟩ : MAddr S) := by
          intro hcontra
          rw [hcontra] at hcond
          simp at hcond
        simp [flushPatch, hcond, alookup, hlive, hb2, MAddr.mk.injEq, hb, ih h,
          hcond.1]
      · simp [flushPatch, hcond, ih h]

theorem flushPatch_lookup_staged_none (db : MDb S K V) (root : S) (n : List S)
    (h : alookup (⟨true, root :: n⟩ : MAddr S) db = none) :
    alookup (⟨true, root :: n⟩ : MAddr S) (flushPatch db root) = none := by
  induction db with
  | nil => simp [flushPatch, alookup]
  | cons e rest ih =>
    obtain ⟨b, kvs0⟩ := e
    by_cases hb : b = (⟨true, root :: n⟩ : MAddr S)
    · subst hb
      simp [alookup] at h
    · simp only [alookup, hb, if_false] at h
      by_cases hcond : b.staged = true ∧ b.name.head? = some root
      · simp [flushPatch, hcond, alookup, MAddr.mk.injEq, hb, ih h]
      · simp [flushPatch, hcond, ih h]

theorem flushPatch_lookup_live_none (db : MDb S K V) (root : S) (n : List S)
    (h : alookup (⟨true, root :: n⟩ : MAddr S) db = none) :
    alookup (⟨false, root :: n⟩ : MAddr S) (flushPatch db root) = none := by
  induction db with
  | nil => simp [flushPatch, alookup]
  | cons e rest ih =>
    obtain ⟨b, kvs0⟩ := e
    by_cases hb : b = (⟨true, root :: n⟩ : MAddr S)
    · subst hb
      simp [alookup] at h
    · simp only [alookup, hb, if_false] at h
      by_cases hcond : b.staged = true ∧ b.name.head? = some root
      · have hlive : (⟨false, b.name⟩ : MAddr S) ≠ ⟨false, root :: n⟩ := by
          intro hcontra
          apply hb
          cases b with
          | mk st nm =>
            simp only [MAddr.mk.injEq] at hcontra ⊢
            exact ⟨hcond.1, hcontra.2⟩
        have hb2 : b ≠ (⟨false, root :: n⟩ : MAddr S) := by
          intro hcontra
          rw [hcontra] at hcond
          simp at hcond
        simp [flushPatch, hcond, alookup, hlive, hb2, MAddr.mk.injEq, hb, ih h]
      · simp [flushPatch, hcond, ih h]

theorem flushPatch_lookup_outside (db : MDb S K V) (root : S) (a : MAddr S)
    (h : a.name.head? ≠ some root) :
    alookup a (flushPatch db root) = none := by
  induction db with
  | nil => simp [flushPatch, alookup]
  | cons e rest ih =>
    obtain ⟨b, kvs0⟩ := e
    by_cases hcond : b.staged = true ∧ b.name.head? = some root
    · have h1 : (⟨false, b.name⟩ : MAddr S) ≠ a := by
        intro hcontra
        apply h
        rw [← hcontra]
        exact hcond.2
      have h2 : b ≠ a := by
        intro hcontra
        apply h
        rw [← hcontra]
        exact hcond.2
      simp [flushPatch, hcond, alookup, h1, h2, ih]
    · simp [flushPatch, hcond, ih]

end Migration

/-- C3: migration staging is invisible through the Prefixed access, and after
flush_migration and merge the staged namespace is empty, migrated live
addresses carry exactly the staged data, and addresses outside the root are
unchanged. -/
theorem c3_migration_flush {S : Type} [DecidableEq S] [DecidableEq K]
    (db : MDb S K V) (root : S) :
    (∀ n n₂ : List S, prefixedResolve root n ≠ migrationResolve root n₂)
  ∧ (∀ (f : Fork (MAddr S) K V) n k v n₂ k₂,
      (f.put (migrationResolve root n) k v).get (prefixedResolve root n₂) k₂ =
        f.get (prefixedResolve root n₂) k₂)
  ∧ (∀ a : MAddr S, a.staged = true → a.underRoot root →
      ∀ k, mergePatch (mdbGet db) (flushPatch db root) a k = none)
  ∧ (∀ n kvs, alookup (migrationResolve root n) db = some kvs →
      ∀ k, mergePatch (mdbGet db) (flushPatch db root) (prefixedResolve root n) k =
        alookup k kvs)
  ∧ (∀ a : MAddr S, ¬ a.underRoot root →
      ∀ k, mergePatch (mdbGet db) (flushPatch db root) a k = mdbGet db a k) := by
  have hres : ∀ n n₂ : List S, prefixedResolve root n ≠ migrationResolve root n₂ := by
    intro n n₂ hcontra
    simp [prefixedResolve, migrationResolve, MAddr.mk.injEq] at hcontra
  refine ⟨hres, fun f n k v n₂ k₂ => ?_, fun a hstaged hunder k => ?_,
    fun n kvs hdb k => ?_, fun a hout k => ?_⟩
  · exact Fork.get_put_ne_addr f k v k₂ fun hcontra => hres n₂ n hcontra.symm
  · obtain ⟨st, nm⟩ := a
    cases nm with
    | nil => simp [MAddr.underRoot] at hunder
    | cons r t =>
      simp only [MAddr.underRoot, List.head?_cons, Option.some.injEq] at hunder
      simp only at hstaged
      subst hstaged hunder
      cases hdb : alookup (⟨true, r :: t⟩ : MAddr S) db with
      | none =>
        rw [mergePatch]
        rw [flushPatch_lookup_staged_none db r t hdb]
        simp [mdbGet, hdb]
      | some kvs =>
        rw [mergePatch]
        rw [flushPatch_lookup_staged db r t kvs hdb]
        simp [applyChanges, alookup]
  · rw [mergePatch, prefixedResolve]
    rw [flushPatch_lookup_live db root n kvs hdb]
    simp only [applyChanges, alookup_putsOf]
    cases alookup k kvs <;> simp
  · rw [mergePatch]
    rw [flushPatch_lookup_outside db root a hout]

/-- Witness for C3 on a concrete database: one staged address under the root,
one live old-schema address under the root, one address outside it. -/
theorem c3_migration_flush_witness :
    (∀ a : MAddr Nat, a.staged = true → a.underRoot 0 →
      ∀ k : Nat, mergePatch
        (mdbGet [((⟨true, [0, 1]⟩ : MAddr Nat), [((0 : Nat), (42 : Nat))]),
          (⟨false, [0, 2]⟩, [(0, 1)]), (⟨false, [5]⟩, [(0, 3)])])
        (flushPatch [((⟨true, [0, 1]⟩ : MAddr Nat), [((0 : Nat), (42 : Nat))]),
          (⟨false, [0, 2]⟩, [(0, 1)]), (⟨false, [5]⟩, [(0, 3)])] 0) a k = none)
  ∧ mergePatch
      (mdbGet [((⟨true, [0, 1]⟩ : MAddr Nat), [((0 : Nat), (42 : Nat))]),
        (⟨false, [0, 2]⟩, [(0, 1)]), (⟨false, [5]⟩, [(0, 3)])])
      (flushPatch [((⟨true, [0, 1]⟩ : MAddr Nat), [((0 : Nat), (42 : Nat))]),
        (⟨false, [0, 2]⟩, [(0, 1)]), (⟨false, [5]⟩, [(0, 3)])] 0)
      (prefixedResolve 0 [1]) 0 = some 42
  ∧ mergePatch
      (mdbGet [((⟨true, [0, 1]⟩ : MAddr Nat), [((0 : Nat), (42 : Nat))]),
        (⟨false, [0, 2]⟩, [(0, 1)]), (⟨false, [5]⟩, [(0, 3)])])
      (flushPatch [((⟨true, [0, 1]⟩ : MAddr Nat), [((0 : Nat), (42 : Nat))]),
        (⟨false, [0, 2]⟩, [(0, 1)]), (⟨false, [5]⟩, [(0, 3)])] 0)
      (⟨false, [5]⟩ : MAddr Nat) 0 =
    mdbGet [((⟨true, [0, 1]⟩ : MAddr Nat), [((0 : Nat), (42 : Nat))]),
      (⟨false, [0, 2]⟩, [(0, 1)]), (⟨false, [5]⟩, [(0, 3)])] ⟨false, [5]⟩ 0 := by
  obtain ⟨h1, h2, h3, h4, h5⟩ := c3_migration_flush
    (S := Nat) (K := Nat) (V := Nat)
    [((⟨true, [0, 1]⟩ : MAddr Nat), [((0 : Nat), (42 : Nat))]),
      (⟨false, [0, 2]⟩, [(0, 1)]), (⟨false, [5]⟩, [(0, 3)])] 0
  exact ⟨h3, by
      have := h4 [1] [(0, 42)] (by decide) 0
      simpa using this,
    h5 ⟨false, [5]⟩ (by decide) 0⟩

/-! ### ListIndex over a fork

Modelled from the spec (sections 4.2 and 4.3): the list index module is
absent from the source tree.  A ListIndex occupies one resolved address; its
elements live under u64-indexed keys and its length under a reserved metadata
key that never collides with an element key (key type Option Nat: none is the
metadata slot, some i the element slot).  A stored value is either the length
(Sum.inl) or an element (Sum.inr).  The driving action set and the reference
Vec semantics are translated from tests/list.rs. -/

/-- The fork a list index lives on: Option Nat keys, length-or-element
values. -/
abbrev LFork (A V : Type) := Fork A (Option Nat) (Nat ⊕ V)

/-- Current length of the list: the value of the metadata slot. -/
def llen (a0 : A) (f : LFork A V) : Nat :=
  match f.get a0 none with
  | some (.inl n) => n
  | _ => 0

/-- Element stored at index i, when the slot holds an element. -/
def lelemAt (a0 : A) (f : LFork A V) (i : Nat) : Option V :=
  match f.get a0 (some i) with
  | some (.inr v) => some v
  | _ => none

/-- ListIndex::push: write the element at index len, bump the length. -/
def lpush (a0 : A) (f : LFork A V) (v : V) : LFork A V :=
  let n := llen a0 f
  (f.put a0 (some n) (.inr v)).put a0 none (.inl (n + 1))

/-- ListIndex::pop: drop the last element slot and decrement the length. -/
def lpop (a0 : A) (f : LFork A V) : LFork A V :=
  let n := llen a0 f
  if n = 0 then f
  else (f.removeKey a0 (some (n - 1))).put a0 none (.inl (n - 1))

/-- ListIndex::extend: push every element in order. -/
def lextend (a0 : A) (f : LFork A V) (vs : List V) : LFork A V :=
  vs.foldl (lpush a0) f

/-- Remove the element slots of a list of indexes. -/
def removeIdxs (a0 : A) (f : LFork A V) (idxs : List Nat) : LFork A V :=
  idxs.foldl (fun g i => g.removeKey a0 (some i)) f

/-- The driven ListIndex::truncate of tests/list.rs: when the list is
non-empty, truncate to (sz mod len), dropping the slots beyond. -/
def ltruncate (a0 : A) (f : LFork A V) (sz : Nat) : LFork A V :=
  let n := llen a0 f
  if n = 0 then f
  else
    let m := sz % n
    (removeIdxs a0 f (List.range' m (n - m))).put a0 none (.inl m)

/-- The driven ListIndex::set of tests/list.rs: when the list is non-empty,
overwrite the element at (idx mod len). -/
def lset (a0 : A) (f : LFork A V) (idx : Nat) (v : V) : LFork A V :=
  let n := llen a0 f
  if n = 0 then f
  else f.put a0 (some (idx % n)) (.inr v)

/-- ListIndex::clear: clear the whole address. -/
def lclear (a0 : A) (f : LFork A V) : LFork A V := f.clear a0

/-- Merge the fork into its base and reopen a fresh fork, as the MergeFork
action of tests/list.rs does. -/
def lmergeReopen (f : LFork A V) : LFork A V :=
  Fork.ofDb (mergePatch f.base f.intoPatch)

/-- The action alphabet of the list property test (tests/list.rs). -/
inductive ListAction (V : Type) where
  | push (v : V)
  | pop
  | extend (vs : List V)
  | truncate (sz : Nat)
  | set (idx : Nat) (v : V)
  | clear
  | mergeFork

/-- One action applied to the list index over the fork. -/
def lstep (a0 : A) (f : LFork A V) : ListAction V → LFork A V
  | .push v => lpush a0 f v
  | .pop => lpop a0 f
  | .extend vs => lextend a0 f vs
  | .truncate sz => ltruncate a0 f sz
  | .set idx v => lset a0 f idx v
  | .clear => lclear a0 f
  | .mergeFork => lmergeReopen f

/-- Run a whole action sequence on the list index. -/
def lrun (a0 : A) (f : LFork A V) (acts : List (ListAction V)) : LFork A V :=
  acts.foldl (lstep a0) f

/-- One action applied to the reference Vec (Modifier for Vec in
tests/list.rs; MergeFork leaves the reference unchanged). -/
def vstep (l : List V) : ListAction V → List V
  | .push v => l ++ [v]
  | .pop => l.dropLast
  | .extend vs => l ++ vs
  | .truncate sz => if l.length = 0 then l else l.take (sz % l.length)
  | .set idx v => if l.length = 0 then l else l.set (idx % l.length) v
  | .clear => []
  | .mergeFork => l

/-- Run a whole action sequence on the reference Vec. -/
def vrun (l : List V) (acts : List (ListAction V)) : List V :=
  acts.foldl vstep l

/-- The element sequence the list index yields under iteration: the slots
0 .. len-1 in order. -/
def lobserve (a0 : A) (f : LFork A V) : List (Option V) :=
  (List.range (llen a0 f)).map (lelemAt a0 f)

/-- Refinement invariant tying the list index state to the reference Vec. -/
def LInv (a0 : A) (f : LFork A V) (r : List V) : Prop :=
  llen a0 f = r.length ∧ ∀ i, lelemAt a0 f i = r[i]?

theorem llen_eq_of_get {f g : LFork A V} (a0 : A)
    (h : f.get a0 none = g.get a0 none) : llen a0 f = llen a0 g := by
  unfold llen
  rw [h]

theorem lelemAt_eq_of_get {f g : LFork A V} (a0 : A) (i : Nat)
    (h : f.get a0 (some i) = g.get a0 (some i)) :
    lelemAt a0 f i = lelemAt a0 g i := by
  unfold lelemAt
  rw [h]

theorem removeIdxs_get_elem (a0 : A) (f : LFork A V) (idxs : List Nat) (j : Nat) :
    (removeIdxs a0 f idxs).get a0 (some j) =
      if j ∈ idxs then none else f.get a0 (some j) := by
  induction idxs generalizing f with
  | nil => simp [removeIdxs]
  | cons i rest ih =>
    have hstep : removeIdxs a0 f (i :: rest) =
        removeIdxs a0 (f.removeKey a0 (some i)) rest := by
      simp [removeIdxs]
    rw [hstep, ih]
    by_cases hj : j = i
    · subst hj
      simp [Fork.get_removeKey_self]
    · have hne : (some i : Option Nat) ≠ some j := by simpa using Ne.symm hj
      rw [Fork.get_removeKey_ne_key _ _ hne]
      simp [hj]

theorem removeIdxs_get_meta (a0 : A) (f : LFork A V) (idxs : List Nat) :
    (removeIdxs a0 f idxs).get a0 none = f.get a0 none := by
  induction idxs generalizing f with
  | nil => simp [removeIdxs]
  | cons i rest ih =>
    have hstep : removeIdxs a0 f (i :: rest) =
        removeIdxs a0 (f.removeKey a0 (some i)) rest := by
      simp [removeIdxs]
    rw [hstep, ih]
    exact Fork.get_removeKey_ne_key _ _ (by simp)

theorem map_range_getElem? (l : List α) :
    (List.range l.length).map (fun i => l[i]?) = l.map some := by
  apply List.ext_getElem?
  intro i
  by_cases h : i < l.length
  · simp [List.getElem?_map, List.getElem?_range, h, List.getElem?_eq_getElem h]
  · push_neg at h
    have h1 : (List.range l.length)[i]? = none :=
      List.getElem?_eq_none (by simpa using h)
    have h2 : l[i]? = none := List.getElem?_eq_none h
    simp [List.getElem?_map, h1, h2]

theorem llen_of_get_inl {f : LFork A V} (a0 : A) (n : Nat)
    (h : f.get a0 none = some (.inl n)) : llen a0 f = n := by
  unfold llen
  rw [h]

theorem llen_of_get_none {f : LFork A V} (a0 : A)
    (h : f.get a0 none = none) : llen a0 f = 0 := by
  unfold llen
  rw [h]

theorem lelemAt_of_get_inr {f : LFork A V} (a0 : A) (i : Nat) (v : V)
    (h : f.get a0 (some i) = some (.inr v)) : lelemAt a0 f i = some v := by
  unfold lelemAt
  rw [h]

theorem lelemAt_of_get_none {f : LFork A V} (a0 : A) (i : Nat)
    (h : f.get a0 (some i) = none) : lelemAt a0 f i = none := by
  unfold lelemAt
  rw [h]

theorem LInv.push (a0 : A) {f : LFork A V} {r : List V} (h : LInv a0 f r)
    (v : V) : LInv a0 (lpush a0 f v) (r ++ [v]) := by
  obtain ⟨hlen, helem⟩ := h
  constructor
  · have hget : (lpush a0 f v).get a0 none = some (.inl (llen a0 f + 1)) :=
      Fork.get_put_self (f.put a0 (some (llen a0 f)) (.inr v)) a0 none
        (.inl (llen a0 f + 1))
    rw [llen_of_get_inl a0 _ hget, hlen]
    simp
  · intro i
    have houter : lelemAt a0 (lpush a0 f v) i =
        lelemAt a0 (f.put a0 (some (llen a0 f)) (.inr v)) i :=
      lelemAt_eq_of_get a0 i (Fork.get_put_ne_key _ _ _ (by simp))
    rw [houter]
    by_cases hi : i = llen a0 f
    · subst hi
      rw [lelemAt_of_get_inr a0 _ v (Fork.get_put_self _ _ _ _)]
      rw [hlen, List.getElem?_concat_length]
    · have hne : (some (llen a0 f) : Option Nat) ≠ some i := by
        simpa using fun hc => hi hc.symm
      rw [lelemAt_eq_of_get a0 i (Fork.get_put_ne_key _ _ _ hne)]
      rw [helem i]
      rw [hlen] at hi
      by_cases hlt : i < r.length
      · rw [List.getElem?_append_left hlt]
      · push_neg at hlt
        have hgt : r.length + 1 ≤ i := by omega
        rw [List.getElem?_eq_none hlt, List.getElem?_eq_none (by simpa using hgt)]

theorem LInv.pop (a0 : A) {f : LFork A V} {r : List V} (h : LInv a0 f r) :
    LInv a0 (lpop a0 f) r.dropLast := by
  obtain ⟨hlen, helem⟩ := h
  by_cases h0 : llen a0 f = 0
  · have hr : r = [] := List.length_eq_zero.mp (hlen ▸ h0)
    subst hr
    simp only [lpop, h0, if_pos rfl, List.dropLast_nil]
    exact ⟨hlen, helem⟩
  · have hstep : lpop a0 f =
        (f.removeKey a0 (some (llen a0 f - 1))).put a0 none
          (.inl (llen a0 f - 1)) := by
      simp [lpop, h0]
    constructor
    · rw [hstep]
      have hget : ((f.removeKey a0 (some (llen a0 f - 1))).put a0 none
          (.inl (llen a0 f - 1))).get a0 none = some (.inl (llen a0 f - 1)) :=
        Fork.get_put_self _ _ _ _
      rw [llen_of_get_inl a0 _ hget, List.length_dropLast, hlen]
    · intro i
      rw [hstep]
      rw [lelemAt_eq_of_get a0 i (Fork.get_put_ne_key _ _ _ (by simp))]
      rw [List.dropLast_eq_take, List.getElem?_take]
      by_cases hi : i = llen a0 f - 1
      · subst hi
        rw [lelemAt_of_get_none a0 _ (Fork.get_removeKey_self f a0 _)]
        rw [hlen]
        simp
      · have hne : (some (llen a0 f - 1) : Option Nat) ≠ some i := by
          simpa using fun hc => hi hc.symm
        rw [lelemAt_eq_of_get a0 i (Fork.get_removeKey_ne_key _ _ hne)]
        rw [helem i]
        rw [hlen] at hi
        by_cases hlt : i < r.length - 1
        · rw [if_pos hlt]
        · rw [if_neg hlt]
          rw [hlen] at h0
          have hge : r.length ≤ i := by omega
          exact List.getElem?_eq_none hge

theorem LInv.extend (a0 : A) {f : LFork A V} {r : List V} (h : LInv a0 f r)
    (vs : List V) : LInv a0 (lextend a0 f vs) (r ++ vs) := by
  induction vs generalizing f r with
  | nil => simpa [lextend] using h
  | cons v rest ih =>
    have h2 := ih (LInv.push a0 h v)
    simpa [lextend, List.foldl_cons] using h2

theorem LInv.clear (a0 : A) (f : LFork A V) :
    LInv a0 (lclear a0 f) ([] : List V) := by
  constructor
  · exact llen_of_get_none a0 (Fork.get_clear_self f a0 none)
  · intro i
    have hnone : lelemAt a0 (lclear a0 f) i = none :=
      lelemAt_of_get_none a0 i (Fork.get_clear_self f a0 (some i))
    rw [hnone]
    simp

theorem LInv.mergeReopen (a0 : A) {f : LFork A V} {r : List V}
    (h : LInv a0 f r) : LInv a0 (lmergeReopen f) r := by
  obtain ⟨hlen, helem⟩ := h
  constructor
  · exact (llen_eq_of_get a0 (Fork.get_ofDb_mergePatch f a0 none)).trans hlen
  · intro i
    exact (lelemAt_eq_of_get a0 i
      (Fork.get_ofDb_mergePatch f a0 (some i))).trans (helem i)

theorem LInv.truncateStep (a0 : A) {f : LFork A V} {r : List V}
    (h : LInv a0 f r) (sz : Nat) :
    LInv a0 (ltruncate a0 f sz)
      (if r.length = 0 then r else r.take (sz % r.length)) := by
  obtain ⟨hlen, helem⟩ := h
  by_cases h0 : llen a0 f = 0
  · rw [hlen] at h0
    simp only [ltruncate, hlen, h0, if_pos rfl]
    exact ⟨hlen, helem⟩
  · rw [hlen] at h0
    have hstep : ltruncate a0 f sz =
        (removeIdxs a0 f (List.range' (sz % llen a0 f)
            (llen a0 f - sz % llen a0 f))).put a0 none
          (.inl (sz % llen a0 f)) := by
      simp [ltruncate, hlen, h0]
    rw [if_neg h0, hstep, hlen]
    have hmlt : sz % r.length < r.length := Nat.mod_lt _ (by omega)
    constructor
    · have hget : ((removeIdxs a0 f (List.range' (sz % r.length)
          (r.length - sz % r.length))).put a0 none
            (.inl (sz % r.length))).get a0 none =
          some (.inl (sz % r.length)) := Fork.get_put_self _ _ _ _
      rw [llen_of_get_inl a0 _ hget, List.length_take]
      omega
    · intro i
      rw [lelemAt_eq_of_get a0 i (Fork.get_put_ne_key _ _ _ (by simp))]
      have hrem := removeIdxs_get_elem a0 f
        (List.range' (sz % r.length) (r.length - sz % r.length)) i
      rw [List.getElem?_take]
      by_cases hmem : i ∈ List.range' (sz % r.length) (r.length - sz % r.length)
      · obtain ⟨hm1, hm2⟩ := List.mem_range'_1.mp hmem
        rw [lelemAt_of_get_none a0 i (by rw [hrem, if_pos hmem])]
        rw [if_neg (by omega)]
      · have hmem2 := hmem
        rw [List.mem_range'_1] at hmem2
        push_neg at hmem2
        have hget : (removeIdxs a0 f (List.range' (sz % r.length)
            (r.length - sz % r.length))).get a0 (some i) = f.get a0 (some i) := by
          rw [hrem, if_neg hmem]
        rw [lelemAt_eq_of_get a0 i hget]
        rw [helem i]
        by_cases hlt : i < sz % r.length
        · rw [if_pos hlt]
        · rw [if_neg hlt]
          have hge : r.length ≤ i := by omega
          exact List.getElem?_eq_none hge

theorem LInv.setStep (a0 : A) {f : LFork A V} {r : List V}
    (h : LInv a0 f r) (idx : Nat) (v : V) :
    LInv a0 (lset a0 f idx v)
      (if r.length = 0 then r else r.set (idx % r.length) v) := by
  obtain ⟨hlen, helem⟩ := h
  by_cases h0 : r.length = 0
  · simp only [lset, hlen, h0, if_pos rfl]
    exact ⟨hlen, helem⟩
  · have hstep : lset a0 f idx v =
        f.put a0 (some (idx % llen a0 f)) (.inr v) := by
      simp [lset, hlen, h0]
    rw [if_neg h0, hstep, hlen]
    have hmlt : idx % r.length < r.length := Nat.mod_lt _ (by omega)
    constructor
    · rw [(llen_eq_of_get a0 (Fork.get_put_ne_key f a0 (.inr v) (by simp)) :
        llen a0 (f.put a0 (some (idx % r.length)) (.inr v)) = llen a0 f)]
      simp [hlen]
    · intro i
      by_cases hi : i = idx % r.length
      · subst hi
        rw [lelemAt_of_get_inr a0 _ v (Fork.get_put_self _ _ _ _)]
        rw [List.getElem?_set_self (by omega)]
      · have hne : (some (idx % r.length) : Option Nat) ≠ some i := by
          simpa using fun hc => hi hc.symm
        rw [lelemAt_eq_of_get a0 i (Fork.get_put_ne_key _ _ _ hne)]
        rw [helem i, List.getElem?_set_ne (fun hc => hi hc.symm)]

theorem LInv.step (a0 : A) {f : LFork A V} {r : List V} (h : LInv a0 f r)
    (act : ListAction V) : LInv a0 (lstep a0 f act) (vstep r act) := by
  cases act with
  | push v => exact LInv.push a0 h v
  | pop => exact LInv.pop a0 h
  | extend vs => exact LInv.extend a0 h vs
  | truncate sz => exact LInv.truncateStep a0 h sz
  | set idx v => exact LInv.setStep a0 h idx v
  | clear => exact LInv.clear a0 f
  | mergeFork => exact LInv.mergeReopen a0 h

theorem LInv.run (a0 : A) {f : LFork A V} {r : List V} (h : LInv a0 f r)
    (acts : List (ListAction V)) : LInv a0 (lrun a0 f acts) (vrun r acts) := by
  induction acts generalizing f r with
  | nil => simpa [lrun, vrun] using h
  | cons act rest ih =>
    have h2 := ih (LInv.step a0 h act)
    simpa [lrun, vrun, List.foldl_cons] using h2

theorem lobserve_eq_of_inv (a0 : A) {f : LFork A V} {r : List V}
    (h : LInv a0 f r) : lobserve a0 f = r.map some := by
  obtain ⟨hlen, helem⟩ := h
  unfold lobserve
  rw [hlen]
  rw [funext helem]
  exact map_range_getElem? r

/-- C9: driven over a fork by any finite sequence of the property-test
actions, the list index at a fixed address yields after every action
sequence exactly the element sequence of the reference Vec driven by the same
actions (merge-and-reopen leaves the reference unchanged); the run starts,
as the test harness does, by clearing the collection. -/
theorem c9_list_refines_vec (a0 : A) (db0 : Db A (Option Nat) (Nat ⊕ V))
    (acts : List (ListAction V)) :
    lobserve a0 (lrun a0 (lclear a0 (Fork.ofDb db0)) acts) =
      (vrun ([] : List V) acts).map some :=
  lobserve_eq_of_inv a0 (LInv.run a0 (LInv.clear a0 (Fork.ofDb db0)) acts)

/-- Error raised by a random-access write past the list length. -/
inductive ListError where
  | outOfRange
deriving DecidableEq

/-- ListIndex::set with its range check (spec sections 4.3 and 7): an index
below the length overwrites the element slot, any other index is refused
with OutOfRange. -/
def lsetChecked (a0 : A) (f : LFork A V) (i : Nat) (v : V) :
    Except ListError (LFork A V) :=
  if i < llen a0 f then .ok (f.put a0 (some i) (.inr v))
  else .error .outOfRange

/-- C6: set(i, v) on a list of length n fails with OutOfRange when i is not
below n, and when i is below n it succeeds, replacing exactly the element at
position i and keeping the length. -/
theorem c6_set_out_of_range (a0 : A) (f : LFork A V) (i : Nat) (v : V) :
    (llen a0 f ≤ i → lsetChecked a0 f i v = .error .outOfRange)
  ∧ (i < llen a0 f → ∃ f2, lsetChecked a0 f i v = .ok f2
      ∧ lelemAt a0 f2 i = some v
      ∧ (∀ j, j ≠ i → lelemAt a0 f2 j = lelemAt a0 f j)
      ∧ llen a0 f2 = llen a0 f) := by
  constructor
  · intro hge
    rw [lsetChecked, if_neg (by omega)]
  · intro hlt
    refine ⟨f.put a0 (some i) (.inr v), by rw [lsetChecked, if_pos hlt], ?_, ?_, ?_⟩
    · exact lelemAt_of_get_inr a0 i v (Fork.get_put_self f a0 (some i) (.inr v))
    · intro j hj
      have hne : (some i : Option Nat) ≠ some j := by
        simpa using fun hc => hj hc.symm
      exact lelemAt_eq_of_get a0 j (Fork.get_put_ne_key f a0 (.inr v) hne)
    · exact llen_eq_of_get a0 (Fork.get_put_ne_key f a0 (.inr v) (by simp))

/-- Witness for C6 on a one-element list: setting index 1 is out of range,
setting index 0 replaces the element. -/
theorem c6_set_out_of_range_witness :
    lsetChecked 0 (lpush 0 (lclear 0 (Fork.ofDb fun (_ : Nat) (_ : Option Nat) =>
        (none : Option (Nat ⊕ Nat)))) 5) 1 7 = .error .outOfRange
  ∧ ∃ f2, lsetChecked 0 (lpush 0 (lclear 0 (Fork.ofDb fun (_ : Nat) (_ : Option Nat) =>
        (none : Option (Nat ⊕ Nat)))) 5) 0 7 = .ok f2
      ∧ lelemAt 0 f2 0 = some 7
      ∧ (∀ j, j ≠ 0 → lelemAt 0 f2 j =
          lelemAt 0 (lpush 0 (lclear 0 (Fork.ofDb fun (_ : Nat) (_ : Option Nat) =>
            (none : Option (Nat ⊕ Nat)))) 5) j)
      ∧ llen 0 f2 = llen 0 (lpush 0 (lclear 0 (Fork.ofDb fun (_ : Nat) (_ : Option Nat) =>
          (none : Option (Nat ⊕ Nat)))) 5) := by
  constructor
  · exact (c6_set_out_of_range 0 (lpush 0 (lclear 0 (Fork.ofDb fun _ _ => none)) 5)
      1 7).1 (by decide)
  · exact (c6_set_out_of_range 0 (lpush 0 (lclear 0 (Fork.ofDb fun _ _ => none)) 5)
      0 7).2 (by decide)

end MetalDB
